import Mathlib

/-
Verification of the link-scanning content script of the privacy-pilot
repository (public/content-script.js).

Modelling conventions:
* A JavaScript string is modelled as a `List Nat` of UTF-16 code units.
  All string literals compared by the script are ASCII, so the ASCII
  fragment of `toLowerCase` is modelled; code points are plain naturals
  (32 is the space, 35 is the hash sign, 63 is the question mark,
  45 is the dash, 44 is the comma, 58 is the colon, 47 is the slash,
  64 is the at sign, 95 is the underscore).
* The DOM is abstracted to the list of anchor elements with their
  attributes; the browser URL constructor is modelled by `parseURL`
  below, covering the component behaviour the script relies on
  (success or failure of parsing, and the protocol, hostname and
  pathname components; percent-encoding and internationalised host
  names are not modelled, the script never depends on them).
-/

/-- Code units of a string literal (identity on ASCII). -/
def String.codes (x : String) : List Nat :=
  x.toList.map Char.toNat

/-- ASCII fragment of the JavaScript toLowerCase. -/
def jsToLower (c : Nat) : Nat :=
  if 65 ≤ c ∧ c ≤ 90 then c + 32 else c

/-- The regexp class backslash-w of JavaScript: letters, digits and the
underscore. -/
def isWordChar (c : Nat) : Bool :=
  (48 ≤ c && c ≤ 57) || (65 ≤ c && c ≤ 90) || (97 ≤ c && c ≤ 122) || c == 95

/-- The regexp class backslash-s of JavaScript restricted to the ASCII
white-space characters (space, tab, line feed, vertical tab, form feed,
carriage return). -/
def isJsSpace (c : Nat) : Bool :=
  c == 32 || c == 9 || c == 10 || c == 11 || c == 12 || c == 13

/-- One pass of the replacement of any run of white space by one space;
the flag records whether the previous character was white space. -/
def collapseWsAux : List Nat → Bool → List Nat
  | [], _ => []
  | c :: cs, inRun =>
    if isJsSpace c then
      if inRun then collapseWsAux cs true else 32 :: collapseWsAux cs true
    else c :: collapseWsAux cs false

/-- The replacement of every maximal run of white space by a single
space, as the global regexp replace of backslash-s-plus does. -/
def collapseWs (l : List Nat) : List Nat :=
  collapseWsAux l false

/-- JavaScript String.prototype.trim on the modelled space class. -/
def trim (l : List Nat) : List Nat :=
  ((l.dropWhile isJsSpace).reverse.dropWhile isJsSpace).reverse

/-- normalizeText of content-script.js: lower-case, replace every
character that is neither a word character nor white space by a space,
collapse white-space runs, trim. -/
def normalizeText (text : List Nat) : List Nat :=
  trim (collapseWs ((text.map jsToLower).map
    (fun c => if isWordChar c || isJsSpace c then c else 32)))

/-- JavaScript String.prototype.startsWith: does s begin with pre. -/
def startsWith : (s pre : List Nat) → Bool
  | _, [] => true
  | [], _ :: _ => false
  | c :: cs, p :: ps => c == p && startsWith cs ps

/-- JavaScript String.prototype.includes: does s contain sub as a
contiguous substring. -/
def strIncludes : (s sub : List Nat) → Bool
  | [], sub => sub.isEmpty
  | c :: cs, sub => startsWith (c :: cs) sub || strIncludes cs sub

/-- sub occurs contiguously inside s. -/
def IsSubstring (sub s : List Nat) : Prop :=
  ∃ pre post, s = pre ++ sub ++ post

/-- A classification rule of the static table. -/
structure LinkPattern where
  keywords : List (List Nat)
  type : List Nat
deriving DecidableEq, Repr

/-- The static pattern table LINK_PATTERNS of content-script.js. -/
def LINK_PATTERNS : List LinkPattern :=
  [⟨["terms".codes], "terms".codes⟩,
   ⟨["user".codes, "agreement".codes], "terms".codes⟩,
   ⟨["tos".codes], "terms".codes⟩,
   ⟨["privacy".codes], "policy".codes⟩,
   ⟨["privacy".codes, "policy".codes], "policy".codes⟩,
   ⟨["data".codes, "protection".codes], "policy".codes⟩,
   ⟨["legal".codes], "terms".codes⟩,
   ⟨["conditions".codes], "terms".codes⟩]

/-- The uncached pattern test of createPatternMatcher: normalize the
text, then containment of the single keyword, or of every keyword when
there are several. -/
def patternMatches (text : List Nat) (p : LinkPattern) : Bool :=
  let normalizedText := normalizeText text
  match p.keywords with
  | [k] => strIncludes normalizedText k
  | ks => ks.all (fun k => strIncludes normalizedText k)

/-- The comma join of the keyword list used to build a cache key. -/
def joinComma : List (List Nat) → List Nat
  | [] => []
  | [k] => k
  | k :: ks => k ++ 44 :: joinComma ks

/-- The cache key of createPatternMatcher: the template literal gluing
the subject text and the joined keywords with a dash. -/
def matcherKey (text : List Nat) (p : LinkPattern) : List Nat :=
  text ++ 45 :: joinComma p.keywords

/-- The Map of createPatternMatcher, modelled as an association list in
which a more recent entry shadows an older one. -/
abbrev MatchCache : Type := List (List Nat × Bool)

/-- Map.has followed by Map.get, on the association-list model. -/
def cacheFind (cache : MatchCache) (key : List Nat) : Option Bool :=
  (List.find? (fun e => e.1 = key) cache).map (fun e => e.2)

/-- One call of the closure returned by createPatternMatcher: consult
the cache under the composite key, otherwise compute the result on the
normalized text and record it. -/
def matcherStep (cache : MatchCache) (text : List Nat) (p : LinkPattern) :
    Bool × MatchCache :=
  let key := matcherKey text p
  match cacheFind cache key with
  | some b => (b, cache)
  | none =>
    let result := patternMatches text p
    (result, (key, result) :: cache)

/-- A sequence of calls against one matcher instance, returning the
answer of each call in order. -/
def runMatcher : MatchCache → List (List Nat × LinkPattern) → List Bool
  | _, [] => []
  | cache, (t, p) :: calls =>
    let step := matcherStep cache t p
    step.1 :: runMatcher step.2 calls

/-- The components of a parsed URL that cleanUrl reads. -/
structure URLParts where
  protocol : List Nat
  hostname : List Nat
  pathname : List Nat
deriving DecidableEq, Repr

/-- Characters allowed in a URL scheme. -/
def isSchemeChar (c : Nat) : Bool :=
  (65 ≤ c && c ≤ 90) || (97 ≤ c && c ≤ 122) || (48 ≤ c && c ≤ 57) ||
    c == 43 || c == 45 || c == 46

/-- An ASCII letter. -/
def isAsciiLetter (c : Nat) : Bool :=
  (65 ≤ c && c ≤ 90) || (97 ≤ c && c ≤ 122)

/-- Drop a user-information prefix (up to the last at sign, 64) from an
authority component. -/
def stripUserinfo (auth : List Nat) : List Nat :=
  if auth.contains 64 then (auth.reverse.takeWhile (fun c => c ≠ 64)).reverse
  else auth

/-- Drop a port suffix (from the first colon, 58) from a host. -/
def stripPort (host : List Nat) : List Nat :=
  host.takeWhile (fun c => c ≠ 58)

/-- The special schemes of the URL standard (without the colon). -/
def specialSchemes : List (List Nat) :=
  ["http".codes, "https".codes, "ws".codes, "wss".codes,
   "ftp".codes, "file".codes]

/-- Model of the browser URL constructor on an absolute URL string:
some parts on success, none where the constructor would throw (no
scheme, scheme not led by a letter, or an empty host under a special
scheme other than file). The pathname never contains a question mark
(63) or a hash sign (35), as in the URL standard, and a special scheme
with an empty path yields the root path, one slash (47). -/
def parseURL (url : List Nat) : Option URLParts :=
  let scheme := url.takeWhile isSchemeChar
  match url.drop scheme.length with
  | 58 :: rest =>
    if (scheme.head?.map isAsciiLetter).getD false then
      let lscheme := scheme.map jsToLower
      if rest.take 2 = [47, 47] then
        let afterSlashes := rest.drop 2
        let authority := afterSlashes.takeWhile
          (fun c => c ≠ 47 ∧ c ≠ 63 ∧ c ≠ 35)
        let path := (afterSlashes.drop authority.length).takeWhile
          (fun c => c ≠ 63 ∧ c ≠ 35)
        if authority = [] ∧ lscheme ∈ specialSchemes ∧ lscheme ≠ "file".codes
        then none
        else some ⟨lscheme ++ [58], stripPort (stripUserinfo authority),
          if path = [] ∧ lscheme ∈ specialSchemes then [47] else path⟩
      else some ⟨lscheme ++ [58], [],
        rest.takeWhile (fun c => c ≠ 63 ∧ c ≠ 35)⟩
    else none
  | _ => none

/-- cleanUrl of content-script.js: on a parseable URL the lower-cased
protocol, two slashes, hostname and pathname; otherwise the raw input
with everything from the first hash sign removed, then everything from
the first question mark removed, lower-cased. -/
def cleanUrl (url : List Nat) : List Nat :=
  (match parseURL url with
   | some u => u.protocol ++ [47, 47] ++ u.hostname ++ u.pathname
   | none => (url.takeWhile (fun c => c ≠ 35)).takeWhile
       (fun c => c ≠ 63)).map jsToLower

/-- An anchor element as the script reads it: the resolved href
property, the optional textContent, and the aria-label and title
attributes (the script never reads the title attribute). -/
structure RawAnchor where
  href : List Nat
  textContent : Option (List Nat)
  ariaLabel : Option (List Nat)
  titleAttr : Option (List Nat)
deriving DecidableEq, Repr

/-- A record pushed by extractLinks. The optional pageTitle field of
the consumer-side LinkData interface is carried to state claims about
it; the object literal pushed by the script has no such key, modelled
as the value none. -/
structure LinkRecord where
  href : List Nat
  text : List Nat
  type : List Nat
  pageTitle : Option (List Nat)
deriving DecidableEq, Repr

/-- The text field of the map stage: the trimmed textContent, or the
raw href when the textContent is missing or trims to the empty
string. -/
def anchorText (a : RawAnchor) : List Nat :=
  match a.textContent with
  | some t => if trim t = [] then a.href else trim t
  | none => a.href

/-- getAttribute of aria-label with the or-else empty-string fallback
of the script (the empty string is falsy, so a missing and an empty
attribute coincide). -/
def ariaOf (a : RawAnchor) : List Nat :=
  (a.ariaLabel).getD []

/-- The condition of the classification loop body for one pattern: any
of the three subjects matches. -/
def anchorMatches (cleanedHref text aria : List Nat) (p : LinkPattern) :
    Bool :=
  patternMatches cleanedHref p || patternMatches text p ||
    patternMatches aria p

/-- The for loop over LINK_PATTERNS with its break: the first pattern
whose condition, conjoined with the trimmed-length guard, holds.
The memoized matcher of the script is replaced by the uncached test;
runMatcher_eq_pure below proves the two observationally equal for
every call the script makes. -/
def findPattern (cleanedHref text aria : List Nat) : Option LinkPattern :=
  LINK_PATTERNS.find? (fun p =>
    anchorMatches cleanedHref text aria p && decide (2 < (trim cleanedHref).length))

/-- The reduce of extractLinks, threading the seen set of normalized
hrefs created at the top of the call. -/
def extractGo : List RawAnchor → List (List Nat) → List LinkRecord
  | [], _ => []
  | a :: rest, seenUrls =>
    let cleanedHref := cleanUrl a.href
    if startsWith a.href "chrome-extension://".codes then
      extractGo rest seenUrls
    else if cleanedHref ∈ seenUrls then extractGo rest seenUrls
    else match findPattern cleanedHref (anchorText a) (ariaOf a) with
      | some p =>
        ⟨cleanedHref, anchorText a, p.type, none⟩ ::
          extractGo rest (cleanedHref :: seenUrls)
      | none => extractGo rest seenUrls

/-- extractLinks of content-script.js over the list of anchors of the
document; the seen set starts empty on every call. -/
def extractLinks (anchors : List RawAnchor) : List LinkRecord :=
  extractGo anchors []

/-- Two consecutive calls of extractLinks against the same unchanged
document; the script keeps no state between the calls (seenUrls is a
local of extractLinks), so both components are one plain call. -/
def extractLinksTwice (anchors : List RawAnchor) :
    List LinkRecord × List LinkRecord :=
  (extractLinks anchors, extractLinks anchors)

/-- Modelled from the spec: the pageTitle fallback chain of its data
model section (title attribute, then aria-label, then anchor text, then
host document title, then a literal fallback string); no code under src
computes a pageTitle. -/
def specPageTitle (a : RawAnchor) (docTitle fallback : List Nat) :
    List Nat :=
  let pick := fun (x : Option (List Nat)) (y : List Nat) =>
    match x with
    | some v => if v = [] then y else v
    | none => y
  pick a.titleAttr (pick a.ariaLabel (pick a.textContent
    (pick (some docTitle) fallback)))

/-- MAX_RETRIES of content-script.js. -/
def MAX_RETRIES : Nat := 3

/-- RETRY_DELAY of content-script.js, in milliseconds. -/
def RETRY_DELAY : Nat := 1000

/-- The observable events of one sendLinksWithRetry invocation. -/
inductive DeliveryEvent where
  | attempt (links : List LinkRecord)
  | logSuccess
  | logError
  | logRetrying (attemptNumber : Nat)
  | delay (ms : Nat)
  | logMaxRetriesReached
deriving DecidableEq, Repr

/-- sendLinksWithRetry of content-script.js as a trace of events; the
oracle succeeds tells whether the attempt at a given retryCount
resolves. The recursion of the script is bounded by the retryCount
guard; the fuel argument only mirrors that bound so that the function
is structural, and sendLinksWithRetry below supplies enough fuel for
every reachable call. -/
def sendLinksWithRetryAux (succeeds : Nat → Bool) (links : List LinkRecord) :
    Nat → Nat → List DeliveryEvent
  | 0, _ => []
  | fuel + 1, retryCount =>
    DeliveryEvent.attempt links ::
      (if succeeds retryCount then [DeliveryEvent.logSuccess]
       else DeliveryEvent.logError ::
         (if retryCount < MAX_RETRIES then
            DeliveryEvent.logRetrying (retryCount + 1) ::
              DeliveryEvent.delay RETRY_DELAY ::
                sendLinksWithRetryAux succeeds links fuel (retryCount + 1)
          else [DeliveryEvent.logMaxRetriesReached]))

/-- The outer call of sendLinksWithRetry, with retryCount zero. -/
def sendLinksWithRetry (succeeds : Nat → Bool) (links : List LinkRecord) :
    List DeliveryEvent :=
  sendLinksWithRetryAux succeeds links (MAX_RETRIES + 1) 0

/-- The count of attempt events in a delivery trace. -/
def attemptsOf (trace : List DeliveryEvent) : Nat :=
  trace.countP (fun e => match e with
    | DeliveryEvent.attempt _ => true
    | _ => false)

/-- The payloads of the attempt events of a delivery trace, in order. -/
def payloadsOf (trace : List DeliveryEvent) : List (List LinkRecord) :=
  trace.filterMap (fun e => match e with
    | DeliveryEvent.attempt l => some l
    | _ => none)

/-- The waits of the delay events of a delivery trace, in order. -/
def delaysOf (trace : List DeliveryEvent) : List Nat :=
  trace.filterMap (fun e => match e with
    | DeliveryEvent.delay ms => some ms
    | _ => none)

/-- The wait the script passes to debounce when it builds the mutation
observer callback. -/
def observerDebounceWait : Nat := 1000

/-- The trailing-edge debounce of content-script.js driven by a
time-ordered list of mutation notification instants: each notification
clears the pending timer and schedules a new one a full wait later; a
pending timer whose deadline is not later than the next notification
fires first. The returned list is the instants at which the debounced
scan runs. -/
def debounceFires (wait : Nat) : List Nat → Option Nat → List Nat
  | [], pending =>
    match pending with
    | some d => [d]
    | none => []
  | t :: ts, pending =>
    match pending with
    | some d =>
      if d ≤ t then d :: debounceFires wait ts (some (t + wait))
      else debounceFires wait ts (some (t + wait))
    | none => debounceFires wait ts (some (t + wait))

/-- The watcher state: whether the mutation observer is connected, and
the deadline of the pending debounce timer if one is set. -/
structure WatcherState where
  observing : Bool
  pending : Option Nat
deriving DecidableEq, Repr

/-- cleanup of content-script.js: observer.disconnect() and nothing
else; the timeout handle lives in the debounce closure and cleanup
does not touch it. -/
def cleanup (st : WatcherState) : WatcherState :=
  ⟨false, st.pending⟩

/-- Whether the pending debounced scan runs at the given instant. -/
def timerFires (st : WatcherState) (now : Nat) : Bool :=
  match st.pending with
  | some d => decide (d ≤ now)
  | none => false

/-- Modelled from the spec: replacement of every maximal run of
characters that are neither in the given word class nor white space by
a single space; the flag records whether the previous character was
part of such a run. -/
def replaceRunsAux (word : Nat → Bool) : List Nat → Bool → List Nat
  | [], _ => []
  | c :: cs, inRun =>
    if word c || isJsSpace c then c :: replaceRunsAux word cs false
    else if inRun then replaceRunsAux word cs true
    else 32 :: replaceRunsAux word cs true

/-- Modelled from the spec: the text-normalizer contract (lower-case,
replace every run outside the word class and white space by one space,
collapse repeated white space, trim), parametrised by the word class
so that the stated class (alphanumeric) and the implemented class
(alphanumeric or underscore) can both be instantiated. -/
def specNormalize (word : Nat → Bool) (text : List Nat) : List Nat :=
  trim (collapseWs (replaceRunsAux word (text.map jsToLower) false))

/-- An ASCII alphanumeric character (the word class the spec states,
without the underscore). -/
def isAlphanumChar (c : Nat) : Bool :=
  (48 ≤ c && c ≤ 57) || (65 ≤ c && c ≤ 90) || (97 ≤ c && c ≤ 122)

/-- The invariant of the match cache: every entry was produced by the
uncached computation on some subject text and some pattern of the
static table. -/
def CacheGood (cache : MatchCache) : Prop :=
  ∀ e ∈ cache, ∃ t p, p ∈ LINK_PATTERNS ∧ e.1 = matcherKey t p ∧
    e.2 = patternMatches t p

/-- A concrete anchor whose href and text classify as a policy link. -/
def cexAnchorC1 : RawAnchor :=
  ⟨"https://x.com/privacy".codes, some "Privacy".codes, none, none⟩

/-- The record extractLinks builds for cexAnchorC1. -/
def cexRecordC1 : LinkRecord :=
  ⟨"https://x.com/privacy".codes, "Privacy".codes, "policy".codes, none⟩

/-- A concrete anchor with an unparseable three-character href that is
all but one character white space, and matching visible text. -/
def cexAnchorC2 : RawAnchor :=
  ⟨" a ".codes, some "terms of service".codes, none, none⟩

/-- A concrete anchor carrying a title attribute and an aria-label. -/
def cexAnchorC6 : RawAnchor :=
  ⟨"https://x.com/privacy".codes, some "Privacy".codes,
    some "Privacy aria".codes, some "Privacy Title".codes⟩

/-- A concrete call sequence against one matcher instance: a repeated
call (the second is a cache hit) and a subject text containing the dash
used by the key template. -/
def witnessCallsC9 : List (List Nat × LinkPattern) :=
  [("privacy policy".codes, ⟨["privacy".codes, "policy".codes], "policy".codes⟩),
   ("privacy policy".codes, ⟨["privacy".codes, "policy".codes], "policy".codes⟩),
   ("x-tos".codes, ⟨["tos".codes], "terms".codes⟩)]

lemma jsToLower_idem (c : Nat) : jsToLower (jsToLower c) = jsToLower c := by
  unfold jsToLower
  by_cases h : 65 ≤ c ∧ c ≤ 90
  · simp only [if_pos h]
    rw [if_neg (by omega)]
  · simp only [if_neg h]

lemma jsToLower_eq_qmark {c : Nat} (h : jsToLower c = 63) : c = 63 := by
  unfold jsToLower at h
  split at h <;> omega

lemma jsToLower_eq_hash {c : Nat} (h : jsToLower c = 35) : c = 35 := by
  unfold jsToLower at h
  split at h <;> omega

lemma mem_trim {c : Nat} {l : List Nat} (h : c ∈ trim l) : c ∈ l := by
  unfold trim at h
  rw [List.mem_reverse] at h
  have h2 := (List.dropWhile_sublist isJsSpace).mem h
  rw [List.mem_reverse] at h2
  exact (List.dropWhile_sublist isJsSpace).mem h2

lemma trim_length_le (l : List Nat) : (trim l).length ≤ l.length := by
  unfold trim
  rw [List.length_reverse]
  calc ((l.dropWhile isJsSpace).reverse.dropWhile isJsSpace).length
      ≤ (l.dropWhile isJsSpace).reverse.length :=
        (List.dropWhile_sublist isJsSpace).length_le
    _ = (l.dropWhile isJsSpace).length := List.length_reverse _
    _ ≤ l.length := (List.dropWhile_sublist isJsSpace).length_le

lemma startsWith_iff : ∀ (s pre : List Nat),
    startsWith s pre = true ↔ ∃ rest, s = pre ++ rest := by
  intro s
  induction s with
  | nil =>
    intro pre
    cases pre with
    | nil => simp [startsWith]
    | cons p ps => simp [startsWith]
  | cons c cs ih =>
    intro pre
    cases pre with
    | nil => simp [startsWith]
    | cons p ps =>
      simp only [startsWith, Bool.and_eq_true, beq_iff_eq, ih]
      constructor
      · rintro ⟨rfl, rest, rfl⟩
        exact ⟨rest, rfl⟩
      · rintro ⟨rest, hr⟩
        rw [List.cons_append] at hr
        obtain ⟨h1, h2⟩ := List.cons.injEq .. ▸ hr
        exact ⟨h1, rest, h2⟩

lemma strIncludes_iff : ∀ (s sub : List Nat),
    strIncludes s sub = true ↔ IsSubstring sub s := by
  intro s
  induction s with
  | nil =>
    intro sub
    simp only [strIncludes, List.isEmpty_iff, IsSubstring]
    constructor
    · rintro rfl
      exact ⟨[], [], rfl⟩
    · rintro ⟨pre, post, h⟩
      have h2 := List.append_eq_nil.mp h.symm
      exact (List.append_eq_nil.mp h2.1).2
  | cons c cs ih =>
    intro sub
    simp only [strIncludes, Bool.or_eq_true, startsWith_iff, ih, IsSubstring]
    constructor
    · rintro (⟨rest, hr⟩ | ⟨pre, post, hp⟩)
      · exact ⟨[], rest, by simpa using hr⟩
      · exact ⟨c :: pre, post, by simp [hp]⟩
    · rintro ⟨pre, post, hp⟩
      cases pre with
      | nil => exact Or.inl ⟨post, by simpa using hp⟩
      | cons d pre2 =>
        right
        rw [List.cons_append, List.cons_append] at hp
        obtain ⟨-, h2⟩ := List.cons.injEq .. ▸ hp
        exact ⟨pre2, post, h2⟩

lemma takeWhile_hash_qmark : ∀ l : List Nat,
    (l.takeWhile (fun c => c ≠ 35)).takeWhile (fun c => c ≠ 63) =
      l.takeWhile (fun c => c ≠ 35 ∧ c ≠ 63) := by
  intro l
  induction l with
  | nil => rfl
  | cons c cs ih =>
    by_cases h35 : c = 35
    · subst h35
      simp [List.takeWhile_cons]
    · by_cases h63 : c = 63
      · subst h63
        simp [List.takeWhile_cons, h35]
      · simp [List.takeWhile_cons, h35, h63] at ih ⊢
        exact ih

/-- find? returns the first element satisfying the test: the list
splits into an all-failing front, the found element, and a tail. -/
lemma find?_split {α : Type} (p : α → Bool) :
    ∀ (l : List α) (x : α), l.find? p = some x ↔
      ∃ l₁ l₂, l = l₁ ++ x :: l₂ ∧ p x = true ∧ ∀ y ∈ l₁, p y = false := by
  intro l
  induction l with
  | nil => simp [List.find?]
  | cons a l ih =>
    intro x
    cases pa : p a with
    | true =>
      rw [List.find?_cons_of_pos _ pa]
      constructor
      · rintro h
        obtain rfl := Option.some.injEq .. ▸ h
        exact ⟨[], l, rfl, pa, by simp⟩
      · rintro ⟨l₁, l₂, heq, hx, hfail⟩
        cases l₁ with
        | nil =>
          obtain ⟨rfl, -⟩ := List.cons.injEq .. ▸ heq
          rfl
        | cons b l₁ =>
          obtain ⟨rfl, -⟩ := List.cons.injEq .. ▸ heq
          exact absurd pa (by simp [hfail a (by simp)])
    | false =>
      rw [List.find?_cons_of_neg _ (by simp [pa])]
      rw [ih x]
      constructor
      · rintro ⟨l₁, l₂, rfl, hx, hfail⟩
        refine ⟨a :: l₁, l₂, rfl, hx, ?_⟩
        intro y hy
        rcases List.mem_cons.mp hy with rfl | hy2
        · exact pa
        · exact hfail y hy2
      · rintro ⟨l₁, l₂, heq, hx, hfail⟩
        cases l₁ with
        | nil =>
          obtain ⟨rfl, -⟩ := List.cons.injEq .. ▸ heq
          rw [pa] at hx
          cases hx
        | cons b l₁ =>
          obtain ⟨rfl, htail⟩ := List.cons.injEq .. ▸ heq
          exact ⟨l₁, l₂, htail, hx, fun y hy => hfail y (by simp [hy])⟩

/-- Splitting at a separator absent from both suffixes is injective. -/
lemma dash_free_split : ∀ (a c b d : List Nat), 45 ∉ b → 45 ∉ d →
    a ++ 45 :: b = c ++ 45 :: d → a = c ∧ b = d := by
  intro a
  induction a with
  | nil =>
    intro c b d hb hd heq
    cases c with
    | nil =>
      obtain ⟨-, h2⟩ := List.cons.injEq .. ▸ heq
      exact ⟨rfl, h2⟩
    | cons x c2 =>
      rw [List.nil_append, List.cons_append] at heq
      obtain ⟨h1, h2⟩ := List.cons.injEq .. ▸ heq
      exact absurd (h2 ▸ List.mem_append_right c2 (List.mem_cons_self 45 d)) hb
  | cons x a2 ih =>
    intro c b d hb hd heq
    cases c with
    | nil =>
      rw [List.cons_append, List.nil_append] at heq
      obtain ⟨h1, h2⟩ := List.cons.injEq .. ▸ heq
      exact absurd (h2.symm ▸ List.mem_append_right a2 (List.mem_cons_self 45 b)) hd
    | cons y c2 =>
      rw [List.cons_append, List.cons_append] at heq
      obtain ⟨h1, h2⟩ := List.cons.injEq .. ▸ heq
      obtain ⟨ha, hbd⟩ := ih c2 b d hb hd h2
      exact ⟨by rw [h1, ha], hbd⟩

lemma mem_stripUserinfo {c : Nat} {auth : List Nat}
    (h : c ∈ stripUserinfo auth) : c ∈ auth := by
  unfold stripUserinfo at h
  split at h
  · rw [List.mem_reverse] at h
    have h2 := (List.takeWhile_sublist _).mem h
    exact List.mem_reverse.mp h2
  · exact h

lemma mem_stripPort {c : Nat} {host : List Nat}
    (h : c ∈ stripPort host) : c ∈ host :=
  (List.takeWhile_sublist _).mem h

lemma isSchemeChar_lower {x : Nat} (hx : isSchemeChar x = true) :
    jsToLower x ≠ 63 ∧ jsToLower x ≠ 35 := by
  simp only [isSchemeChar, Bool.or_eq_true, Bool.and_eq_true,
    decide_eq_true_eq, beq_iff_eq] at hx
  unfold jsToLower
  split <;> omega

lemma parseURL_parts {url : List Nat} {u : URLParts}
    (h : parseURL url = some u) :
    ∀ c ∈ u.protocol ++ [47, 47] ++ u.hostname ++ u.pathname,
      c ≠ 63 ∧ c ≠ 35 := by
  simp only [parseURL] at h
  split at h
  case _ rest heq =>
    split at h
    case isTrue =>
      split at h
      case isTrue htake =>
        split at h
        case isTrue => cases h
        case isFalse =>
          rw [Option.some.injEq] at h
          subst h
          intro c hc
          simp only [List.mem_append] at hc
          rcases hc with ((hc | hc) | hc) | hc
          · rcases hc with hc2 | hc2
            · obtain ⟨x, hx, rfl⟩ := List.mem_map.mp hc2
              exact isSchemeChar_lower (List.mem_takeWhile_imp hx)
            · simp only [List.mem_singleton] at hc2
              omega
          · simp only [List.mem_cons, List.not_mem_nil, or_false] at hc
            omega
          · have hc2 := mem_stripUserinfo (mem_stripPort hc)
            have hp := List.mem_takeWhile_imp hc2
            simp only [decide_eq_true_eq] at hp
            exact ⟨hp.2.1, hp.2.2⟩
          · split at hc
            · simp only [List.mem_singleton] at hc
              omega
            · have hp := List.mem_takeWhile_imp hc
              simp only [decide_eq_true_eq] at hp
              exact hp
      case isFalse =>
        rw [Option.some.injEq] at h
        subst h
        intro c hc
        simp only [List.mem_append] at hc
        rcases hc with ((hc | hc) | hc) | hc
        · rcases hc with hc2 | hc2
          · obtain ⟨x, hx, rfl⟩ := List.mem_map.mp hc2
            exact isSchemeChar_lower (List.mem_takeWhile_imp hx)
          · simp only [List.mem_singleton] at hc2
            omega
        · simp only [List.mem_cons, List.not_mem_nil, or_false] at hc
          omega
        · cases hc
        · have hp := List.mem_takeWhile_imp hc
          simp only [decide_eq_true_eq] at hp
          exact hp
    case isFalse => cases h
  case _ => cases h

lemma cleanUrl_chars {url : List Nat} :
    ∀ c ∈ cleanUrl url, jsToLower c = c ∧ c ≠ 63 ∧ c ≠ 35 := by
  intro c hc
  unfold cleanUrl at hc
  rw [List.mem_map] at hc
  obtain ⟨x, hx, rfl⟩ := hc
  refine ⟨jsToLower_idem x, ?_, ?_⟩
  · intro h63
    have hx63 := jsToLower_eq_qmark h63
    subst hx63
    revert hx
    split
    case _ u hu => exact fun hx => ((parseURL_parts hu) 63 hx).1 rfl
    case _ =>
      intro hx
      have hp := List.mem_takeWhile_imp hx
      simp only [decide_eq_true_eq] at hp
      exact hp rfl
  · intro h35
    have hx35 := jsToLower_eq_hash h35
    subst hx35
    revert hx
    split
    case _ u hu => exact fun hx => ((parseURL_parts hu) 35 hx).2 rfl
    case _ =>
      intro hx
      have hp := List.mem_takeWhile_imp ((List.takeWhile_sublist _).mem hx)
      simp only [decide_eq_true_eq] at hp
      exact hp rfl

lemma isWordChar_not_space {c : Nat} (h : isWordChar c = true) :
    isJsSpace c = false := by
  simp only [isWordChar, Bool.or_eq_true, Bool.and_eq_true,
    decide_eq_true_eq, beq_iff_eq] at h
  simp only [isJsSpace, Bool.or_eq_false_iff, beq_eq_false_iff_ne]
  omega

/-- Replacing every character of a run by a space and then collapsing
white space equals replacing every run by one space and then
collapsing, provided the word class contains no white space. -/
lemma isJsSpace_32 : isJsSpace 32 = true := rfl

lemma collapse_perchar_eq_runs (word : Nat → Bool) :
    ∀ l : List Nat,
      (∀ b, collapseWsAux (l.map (fun c => if word c || isJsSpace c then c else 32)) b
          = collapseWsAux (replaceRunsAux word l false) b)
        ∧ collapseWsAux (l.map (fun c => if word c || isJsSpace c then c else 32)) true
          = collapseWsAux (replaceRunsAux word l true) true := by
  intro l
  induction l with
  | nil => exact ⟨fun b => rfl, rfl⟩
  | cons c cs ih =>
    obtain ⟨ihP, ihQ⟩ := ih
    simp only [Bool.or_eq_true] at ihP ihQ
    by_cases hsp : isJsSpace c = true
    · constructor
      · intro b
        cases b <;>
          simp [replaceRunsAux, collapseWsAux, hsp, isJsSpace_32,
            Bool.or_eq_true, ihP true]
      · simp [replaceRunsAux, collapseWsAux, hsp, isJsSpace_32,
          Bool.or_eq_true, ihP true]
    · replace hsp : isJsSpace c = false := by
        cases h : isJsSpace c
        · rfl
        · exact absurd h hsp
      by_cases hword : word c = true
      · constructor
        · intro b
          cases b <;>
            simp [replaceRunsAux, collapseWsAux, hword, hsp, isJsSpace_32,
              Bool.or_eq_true, ihP false]
        · simp [replaceRunsAux, collapseWsAux, hword, hsp, isJsSpace_32,
            Bool.or_eq_true, ihP false]
      · replace hword : word c = false := by
          cases h : word c
          · rfl
          · exact absurd h hword
        constructor
        · intro b
          cases b <;>
            simp [replaceRunsAux, collapseWsAux, hword, hsp, isJsSpace_32,
              Bool.or_eq_true, ihQ]
        · simp [replaceRunsAux, collapseWsAux, hword, hsp, isJsSpace_32,
            Bool.or_eq_true, ihQ]

lemma extractGo_mem : ∀ (anchors : List RawAnchor) (seen : List (List Nat))
    (r : LinkRecord), r ∈ extractGo anchors seen →
    (∃ a : RawAnchor, r.href = cleanUrl a.href) ∧
      2 < (trim r.href).length ∧ r.href ∉ seen ∧ r.pageTitle = none := by
  intro anchors
  induction anchors with
  | nil =>
    intro seen r h
    cases h
  | cons a rest ih =>
    intro seen r h
    simp only [extractGo] at h
    split at h
    · exact ih seen r h
    · split at h
      case isTrue => exact ih seen r h
      case isFalse hseen =>
        split at h
        case _ p hfp =>
          rcases List.mem_cons.mp h with rfl | hmem
          · refine ⟨⟨a, rfl⟩, ?_, hseen, rfl⟩
            have hpred := List.find?_some hfp
            rw [Bool.and_eq_true] at hpred
            exact of_decide_eq_true hpred.2
          · obtain ⟨hex, hg, hnotin, hpt⟩ := ih (cleanUrl a.href :: seen) r hmem
            exact ⟨hex, hg, fun hs => hnotin (List.mem_cons.mpr (Or.inr hs)), hpt⟩
        case _ => exact ih seen r h

lemma extractGo_pairwise : ∀ (anchors : List RawAnchor)
    (seen : List (List Nat)),
    (extractGo anchors seen).Pairwise (fun r₁ r₂ => r₁.href ≠ r₂.href) := by
  intro anchors
  induction anchors with
  | nil =>
    intro seen
    exact List.Pairwise.nil
  | cons a rest ih =>
    intro seen
    simp only [extractGo]
    split
    · exact ih seen
    · split
      case isTrue => exact ih seen
      case isFalse hseen =>
        split
        case _ p hfp =>
          refine List.Pairwise.cons ?_ (ih (cleanUrl a.href :: seen))
          intro r hr
          obtain ⟨-, -, hnotin, -⟩ :=
            extractGo_mem rest (cleanUrl a.href :: seen) r hr
          exact fun he => hnotin (he ▸ List.mem_cons.mpr (Or.inl rfl))
        case _ => exact ih seen

lemma LP_dashfree : ∀ p ∈ LINK_PATTERNS, 45 ∉ joinComma p.keywords := by
  decide

lemma LP_join_inj : ∀ p ∈ LINK_PATTERNS, ∀ q ∈ LINK_PATTERNS,
    joinComma p.keywords = joinComma q.keywords → p.keywords = q.keywords := by
  decide

lemma patternMatches_congr {p q : LinkPattern} (t : List Nat)
    (h : p.keywords = q.keywords) : patternMatches t p = patternMatches t q := by
  cases p
  cases q
  simp only at h
  subst h
  rfl

lemma matcherKey_inj_LP {t t2 : List Nat} {p q : LinkPattern}
    (hp : p ∈ LINK_PATTERNS) (hq : q ∈ LINK_PATTERNS)
    (h : matcherKey t p = matcherKey t2 q) : t = t2 ∧ p.keywords = q.keywords := by
  unfold matcherKey at h
  obtain ⟨ht, hj⟩ :=
    dash_free_split t t2 (joinComma p.keywords) (joinComma q.keywords)
      (LP_dashfree p hp) (LP_dashfree q hq) h
  exact ⟨ht, LP_join_inj p hp q hq hj⟩

lemma runMatcher_eq_pure : ∀ (calls : List (List Nat × LinkPattern))
    (cache : MatchCache), CacheGood cache →
    (∀ c ∈ calls, c.2 ∈ LINK_PATTERNS) →
    runMatcher cache calls = calls.map (fun c => patternMatches c.1 c.2) := by
  intro calls
  induction calls with
  | nil =>
    intro cache hg hlp
    rfl
  | cons c calls ih =>
    rintro cache hg hlp
    obtain ⟨t, p⟩ := c
    have hp : p ∈ LINK_PATTERNS := hlp (t, p) (List.mem_cons.mpr (Or.inl rfl))
    have hrest : ∀ c ∈ calls, c.2 ∈ LINK_PATTERNS :=
      fun c hc => hlp c (List.mem_cons.mpr (Or.inr hc))
    simp only [runMatcher, matcherStep, List.map_cons]
    cases hfind : cacheFind cache (matcherKey t p) with
    | none =>
      show patternMatches t p ::
          runMatcher ((matcherKey t p, patternMatches t p) :: cache) calls = _
      refine congrArg₂ _ rfl (ih _ ?_ hrest)
      intro e he
      rcases List.mem_cons.mp he with rfl | he2
      · exact ⟨t, p, hp, rfl, rfl⟩
      · exact hg e he2
    | some b =>
      show b :: runMatcher cache calls = _
      obtain ⟨e, he1, he2⟩ := Option.map_eq_some'.mp hfind
      have hkey := List.find?_some he1
      simp only [decide_eq_true_eq] at hkey
      have hmem : e ∈ cache := List.mem_of_find?_eq_some he1
      obtain ⟨t2, p2, hp2, hk2, hv2⟩ := hg e hmem
      obtain ⟨ht, hkw⟩ := matcherKey_inj_LP hp2 hp (hk2.symm.trans hkey)
      have hb : b = patternMatches t p := by
        rw [← he2, hv2, ht]
        exact patternMatches_congr t hkw
      rw [hb]
      exact congrArg₂ _ rfl (ih cache hg hrest)

lemma debounceFires_pending : ∀ (ts : List Nat) (t0 : Nat),
    List.Chain (fun a b => b < a + observerDebounceWait) t0 ts →
    debounceFires observerDebounceWait ts (some (t0 + observerDebounceWait)) =
      [ts.getLastD t0 + observerDebounceWait] := by
  intro ts
  induction ts with
  | nil =>
    intro t0 hch
    rfl
  | cons t1 ts ih =>
    intro t0 hch
    rcases hch with _ | ⟨hrel, hch2⟩
    simp only [debounceFires, List.getLastD_cons]
    rw [if_neg (by omega)]
    exact ih t1 hch2

/-- C1 counterexample: the claim asserts that the set of delivered
hrefs persists across extraction calls, so that a second extraction of
an unchanged document yields zero new records. The seen set is created
afresh inside each extractLinks call, so the second call of the session
returns the same non-empty record list again. -/
theorem C1_counterexample :
    (extractLinksTwice [cexAnchorC1]).2 = [cexRecordC1] ∧
      (extractLinksTwice [cexAnchorC1]).2 ≠ [] := by
  decide

/-- C1 amended: within one extraction call no two records share a
normalized href, and a repeated call against the unchanged document
returns the identical record list again (no state persists between
calls), rather than zero records. -/
theorem C1_dedup_within_call (anchors : List RawAnchor) :
    (extractLinksTwice anchors).1 = (extractLinksTwice anchors).2 ∧
      (extractLinksTwice anchors).2.Pairwise
        (fun r₁ r₂ => r₁.href ≠ r₂.href) :=
  ⟨rfl, extractGo_pairwise anchors []⟩

/-- C2 counterexample: the claim conditions classification on the
normalized href having length greater than 2, but the script measures
the trimmed normalized href. The href of cexAnchorC2 normalizes to a
three-character string whose trimmed length is 1, its text matches the
first table pattern, yet extraction classifies nothing. -/
theorem C2_counterexample :
    (cleanUrl " a ".codes).length = 3 ∧
      anchorMatches (cleanUrl " a ".codes) (anchorText cexAnchorC2)
        (ariaOf cexAnchorC2) ⟨["terms".codes], "terms".codes⟩ = true ∧
      (⟨["terms".codes], "terms".codes⟩ : LinkPattern) ∈ LINK_PATTERNS ∧
      findPattern (cleanUrl " a ".codes) (anchorText cexAnchorC2)
        (ariaOf cexAnchorC2) = none ∧
      extractLinks [cexAnchorC2] = [] := by
  decide

/-- C2 amended: for an anchor whose trimmed normalized href is longer
than 2, classification returns exactly the first table pattern any of
whose three subjects matches, consulting no later pattern; a pattern
matches when every keyword occurs as a contiguous substring of the
normalized subject, order-independently and without token boundaries,
so the single word privacypolicy satisfies the privacy and policy
keyword pair. -/
theorem C2_first_match_semantics :
    (∀ (h t a : List Nat) (p : LinkPattern), 2 < (trim h).length →
      (findPattern h t a = some p ↔
        ∃ ps₁ ps₂, LINK_PATTERNS = ps₁ ++ p :: ps₂ ∧
          anchorMatches h t a p = true ∧
          ∀ q ∈ ps₁, anchorMatches h t a q = false))
    ∧ (∀ (t : List Nat) (p : LinkPattern),
        patternMatches t p = true ↔
          ∀ k ∈ p.keywords, IsSubstring k (normalizeText t))
    ∧ (∀ (t : List Nat) (kws kws2 : List (List Nat)) (ty ty2 : List Nat),
        kws.Perm kws2 →
          patternMatches t ⟨kws, ty⟩ = patternMatches t ⟨kws2, ty2⟩)
    ∧ patternMatches "privacypolicy".codes
        ⟨["privacy".codes, "policy".codes], "policy".codes⟩ = true := by
  have hB : ∀ (t : List Nat) (p : LinkPattern),
      patternMatches t p = true ↔
        ∀ k ∈ p.keywords, IsSubstring k (normalizeText t) := by
    intro t p
    obtain ⟨kws, ty⟩ := p
    cases kws with
    | nil => simp [patternMatches]
    | cons k1 rest =>
      cases rest with
      | nil => simp [patternMatches, strIncludes_iff]
      | cons k2 rest2 =>
        simp [patternMatches, List.all_eq_true, strIncludes_iff]
  refine ⟨?_, hB, ?_, ?_⟩
  · intro h t a p hlen
    have hd : decide (2 < (trim h).length) = true := decide_eq_true hlen
    unfold findPattern
    rw [find?_split]
    simp [hd]
  · intro t kws kws2 ty ty2 hperm
    cases hb2 : patternMatches t ⟨kws2, ty2⟩ with
    | true =>
      refine (hB t ⟨kws, ty⟩).mpr ?_
      intro k hk
      exact (hB t ⟨kws2, ty2⟩).mp hb2 k (hperm.mem_iff.mp hk)
    | false =>
      cases hb1 : patternMatches t ⟨kws, ty⟩ with
      | false => rfl
      | true =>
        have h2 : patternMatches t ⟨kws2, ty2⟩ = true :=
          (hB t ⟨kws2, ty2⟩).mpr
            (fun k hk => (hB t ⟨kws, ty⟩).mp hb1 k (hperm.mem_iff.mpr hk))
        exact absurd h2 (by simp [hb2])
  · decide

/-- C2 witness: the first part of C2_first_match_semantics evaluated on
the subject terms with the trimmed-length guard discharged. -/
theorem C2_witness :
    2 < (trim "terms".codes).length ∧
      (findPattern "terms".codes [] [] =
          some ⟨["terms".codes], "terms".codes⟩ ↔
        ∃ ps₁ ps₂,
          LINK_PATTERNS = ps₁ ++
            (⟨["terms".codes], "terms".codes⟩ : LinkPattern) :: ps₂ ∧
          anchorMatches "terms".codes [] []
            ⟨["terms".codes], "terms".codes⟩ = true ∧
          ∀ q ∈ ps₁, anchorMatches "terms".codes [] [] q = false) :=
  ⟨by decide, C2_first_match_semantics.1 _ _ _ _ (by decide)⟩

/-- C3: a permanently failing delivery makes exactly 4 attempts (1
initial plus 3 retries), waits a fixed 1000 ms between consecutive
attempts, hands every attempt the identical records payload, and ends
by logging the exhaustion instead of raising. -/
theorem C3_retry_termination (succeeds : Nat → Bool)
    (links : List LinkRecord) (hfail : ∀ n, succeeds n = false) :
    sendLinksWithRetry succeeds links =
      [DeliveryEvent.attempt links, DeliveryEvent.logError,
       DeliveryEvent.logRetrying 1, DeliveryEvent.delay 1000,
       DeliveryEvent.attempt links, DeliveryEvent.logError,
       DeliveryEvent.logRetrying 2, DeliveryEvent.delay 1000,
       DeliveryEvent.attempt links, DeliveryEvent.logError,
       DeliveryEvent.logRetrying 3, DeliveryEvent.delay 1000,
       DeliveryEvent.attempt links, DeliveryEvent.logError,
       DeliveryEvent.logMaxRetriesReached] ∧
    attemptsOf (sendLinksWithRetry succeeds links) = 4 ∧
    payloadsOf (sendLinksWithRetry succeeds links) =
      [links, links, links, links] ∧
    delaysOf (sendLinksWithRetry succeeds links) = [1000, 1000, 1000] := by
  have htr : sendLinksWithRetry succeeds links =
      [DeliveryEvent.attempt links, DeliveryEvent.logError,
       DeliveryEvent.logRetrying 1, DeliveryEvent.delay 1000,
       DeliveryEvent.attempt links, DeliveryEvent.logError,
       DeliveryEvent.logRetrying 2, DeliveryEvent.delay 1000,
       DeliveryEvent.attempt links, DeliveryEvent.logError,
       DeliveryEvent.logRetrying 3, DeliveryEvent.delay 1000,
       DeliveryEvent.attempt links, DeliveryEvent.logError,
       DeliveryEvent.logMaxRetriesReached] := by
    simp [sendLinksWithRetry, sendLinksWithRetryAux, hfail,
      MAX_RETRIES, RETRY_DELAY]
  refine ⟨htr, ?_, ?_, ?_⟩ <;> rw [htr] <;> rfl

/-- C3 witness: the retry trace of an always-failing oracle on the
empty payload contains exactly four attempts. -/
theorem C3_witness :
    (∀ n : Nat, (fun _ : Nat => false) n = false) ∧
      attemptsOf (sendLinksWithRetry (fun _ => false) []) = 4 :=
  ⟨fun _ => rfl,
    (C3_retry_termination (fun _ => false) [] (fun _ => rfl)).2.1⟩

/-- C4 counterexample: the claim names a 500 ms quiet window; the wait
the script passes to debounce for the mutation observer is 1000 ms, so
a single notification at instant 0 fires the scan at 1000, not 500. -/
theorem C4_counterexample :
    observerDebounceWait = 1000 ∧ observerDebounceWait ≠ 500 ∧
      debounceFires observerDebounceWait [0] none = [1000] ∧
      debounceFires observerDebounceWait [0] none ≠ [500] := by
  decide

/-- C4 amended: mutation notifications whose gaps stay below the fixed
1000 ms window collapse into one scan scheduled a full window after the
last notification of the burst; each notification inside the window
resets the timer (trailing-edge debounce). -/
theorem C4_debounce_collapse (t0 : Nat) (ts : List Nat)
    (hburst : List.Chain (fun a b => b < a + observerDebounceWait) t0 ts) :
    debounceFires observerDebounceWait (t0 :: ts) none =
      [ts.getLastD t0 + observerDebounceWait] := by
  show debounceFires observerDebounceWait ts
    (some (t0 + observerDebounceWait)) = _
  exact debounceFires_pending ts t0 hburst

/-- C4 witness: a three-notification burst at 0, 300 and 600 produces
one scan at 1600. -/
theorem C4_witness :
    List.Chain (fun a b => b < a + observerDebounceWait) 0 [300, 600] ∧
      debounceFires observerDebounceWait [0, 300, 600] none =
        [[300, 600].getLastD 0 + observerDebounceWait] :=
  have hch : List.Chain (fun a b => b < a + observerDebounceWait) 0 [300, 600] :=
    List.Chain.cons (by decide) (List.Chain.cons (by decide) List.Chain.nil)
  ⟨hch, C4_debounce_collapse 0 [300, 600] hch⟩

/-- C5 counterexample: the claim asserts that teardown cancels a
pending debounced scan. cleanup only disconnects the observer; a timer
pending at teardown stays set and still fires at its deadline. -/
theorem C5_counterexample :
    (cleanup ⟨true, some 1000⟩).pending = some 1000 ∧
      (cleanup ⟨true, some 1000⟩).pending ≠ none ∧
      timerFires (cleanup ⟨true, some 1000⟩) 1000 = true := by
  decide

/-- C5 amended: teardown unsubscribes from mutation notifications and
is idempotent and safe from any state, but it does not cancel a pending
debounced scan: the pending deadline survives cleanup unchanged. -/
theorem C5_teardown (st : WatcherState) :
    cleanup (cleanup st) = cleanup st ∧
      (cleanup st).observing = false ∧ (cleanup st).pending = st.pending :=
  ⟨rfl, rfl, rfl⟩

/-- C6 counterexample: the claim asserts every delivered record carries
a pageTitle resolved through the fallback chain. The pushed object has
no pageTitle key even for an anchor carrying a title attribute, while
the chain of the spec would resolve one. -/
theorem C6_counterexample :
    (extractLinks [cexAnchorC6]).map (fun r => r.pageTitle) = [none] ∧
      specPageTitle cexAnchorC6 "Doc Title".codes "Privacy Pilot".codes =
        "Privacy Title".codes ∧
      (none : Option (List Nat)) ≠ some ("Privacy Title".codes) := by
  decide

/-- C6 amended: no delivered record carries a pageTitle at all; the
field of the consumer-side interface stays absent for every record the
extractor pushes. -/
theorem C6_no_pageTitle (anchors : List RawAnchor) (r : LinkRecord)
    (hr : r ∈ extractLinks anchors) : r.pageTitle = none :=
  (extractGo_mem anchors [] r hr).2.2.2

/-- C6 witness: the record extracted from cexAnchorC1 carries no
pageTitle. -/
theorem C6_witness :
    cexRecordC1 ∈ extractLinks [cexAnchorC1] ∧
      cexRecordC1.pageTitle = none :=
  ⟨by decide, C6_no_pageTitle [cexAnchorC1] cexRecordC1 (by decide)⟩

/-- C7 counterexample: the claim asserts that an unparseable input is
returned lower-cased but otherwise unchanged. The fallback strips
everything from the first question mark and hash sign, so abc?def
comes back as abc. -/
theorem C7_counterexample :
    parseURL "abc?def".codes = none ∧
      cleanUrl "abc?def".codes = "abc".codes ∧
      cleanUrl "abc?def".codes ≠ ("abc?def".codes).map jsToLower := by
  decide

/-- C7 amended: on an input that does not parse as a URL, cleanUrl
never raises and returns the lower-cased longest prefix of the input
that contains neither a hash sign nor a question mark: the query and
fragment suffixes are stripped, everything kept is only lower-cased. -/
theorem C7_fallback (url : List Nat) (h : parseURL url = none) :
    cleanUrl url =
      (url.takeWhile (fun c => c ≠ 35 ∧ c ≠ 63)).map jsToLower ∧
    63 ∉ cleanUrl url ∧ 35 ∉ cleanUrl url ∧
    ∃ rest, url.map jsToLower = cleanUrl url ++ rest := by
  have he : cleanUrl url =
      ((url.takeWhile (fun c => c ≠ 35)).takeWhile
        (fun c => c ≠ 63)).map jsToLower := by
    unfold cleanUrl
    rw [h]
  have he2 : cleanUrl url =
      (url.takeWhile (fun c => c ≠ 35 ∧ c ≠ 63)).map jsToLower := by
    rw [he, takeWhile_hash_qmark]
  refine ⟨he2, ?_, ?_, ?_⟩
  · intro hc
    exact (cleanUrl_chars 63 hc).2.1 rfl
  · intro hc
    exact (cleanUrl_chars 35 hc).2.2 rfl
  · refine ⟨(url.dropWhile (fun c => c ≠ 35 ∧ c ≠ 63)).map jsToLower, ?_⟩
    rw [he2, ← List.map_append, List.takeWhile_append_dropWhile]

/-- C7 witness: C7_fallback evaluated on an unparseable input without
query or fragment characters, which is returned lower-cased whole. -/
theorem C7_witness :
    parseURL "hello world".codes = none ∧
      cleanUrl "hello world".codes =
        (("hello world".codes).takeWhile
          (fun c => c ≠ 35 ∧ c ≠ 63)).map jsToLower :=
  ⟨by decide, (C7_fallback "hello world".codes (by decide)).1⟩

/-- C8 counterexample: the claim describes the word class as
alphanumeric, but the regexp word class of the script keeps the
underscore: a_b normalizes to itself, not to a b. -/
theorem C8_counterexample :
    normalizeText "a_b".codes = "a_b".codes ∧
      specNormalize isAlphanumChar "a_b".codes = "a b".codes ∧
      normalizeText "a_b".codes ≠ specNormalize isAlphanumChar "a_b".codes := by
  decide

/-- C8 amended: the text normalizer is the total function that
lower-cases, replaces every run of characters that are neither word
characters (alphanumeric or underscore) nor white space by one space,
collapses repeated white space and trims; stated as equality with the
run-based normalizer of the spec on the corrected word class. -/
theorem C8_normalize_spec (t : List Nat) :
    normalizeText t = specNormalize isWordChar t := by
  unfold normalizeText specNormalize collapseWs
  exact congrArg trim
    ((collapse_perchar_eq_runs isWordChar (t.map jsToLower)).1 false)

/-- C9: the memoized matcher is observationally identical to the
uncached computation for every call sequence whose patterns come from
the static table, and on such patterns the composite cache key is
injective, so no two distinct subject-pattern pairs share an entry. -/
theorem C9_cache_transparent :
    (∀ calls : List (List Nat × LinkPattern),
      (∀ c ∈ calls, c.2 ∈ LINK_PATTERNS) →
        runMatcher [] calls = calls.map (fun c => patternMatches c.1 c.2))
    ∧ ∀ (t t2 : List Nat) (p q : LinkPattern), p ∈ LINK_PATTERNS →
        q ∈ LINK_PATTERNS → matcherKey t p = matcherKey t2 q →
        t = t2 ∧ p.keywords = q.keywords := by
  constructor
  · intro calls hlp
    exact runMatcher_eq_pure calls []
      (fun e he => absurd he (List.not_mem_nil e)) hlp
  · intro t t2 p q hp hq hk
    exact matcherKey_inj_LP hp hq hk

/-- C9 witness: a call sequence with a cache hit and a dash inside a
subject text returns exactly the uncached results. -/
theorem C9_witness :
    (∀ c ∈ witnessCallsC9, c.2 ∈ LINK_PATTERNS) ∧
      runMatcher [] witnessCallsC9 =
        witnessCallsC9.map (fun c => patternMatches c.1 c.2) :=
  ⟨by decide, C9_cache_transparent.1 witnessCallsC9 (by decide)⟩

/-- C10: within one extractLinks result the hrefs are pairwise
distinct, and every href is fully lower-case, contains neither a
question mark nor a hash sign, and is at least 3 characters long. -/
theorem C10_record_invariants (anchors : List RawAnchor) :
    (extractLinks anchors).Pairwise (fun r₁ r₂ => r₁.href ≠ r₂.href) ∧
      ∀ r ∈ extractLinks anchors,
        (∀ c ∈ r.href, jsToLower c = c) ∧ 63 ∉ r.href ∧ 35 ∉ r.href ∧
          3 ≤ r.href.length := by
  refine ⟨extractGo_pairwise anchors [], ?_⟩
  intro r hr
  obtain ⟨⟨a, hhref⟩, hlen, -, -⟩ := extractGo_mem anchors [] r hr
  refine ⟨?_, ?_, ?_, ?_⟩
  · intro c hc
    exact (cleanUrl_chars c (hhref ▸ hc)).1
  · intro hc
    exact (cleanUrl_chars 63 (hhref ▸ hc)).2.1 rfl
  · intro hc
    exact (cleanUrl_chars 35 (hhref ▸ hc)).2.2 rfl
  · have := trim_length_le r.href
    omega

/-- C10 witness: the record extracted from cexAnchorC1 satisfies the
stated href invariants. -/
theorem C10_witness :
    cexRecordC1 ∈ extractLinks [cexAnchorC1] ∧
      63 ∉ cexRecordC1.href ∧ 35 ∉ cexRecordC1.href ∧
      3 ≤ cexRecordC1.href.length :=
  ⟨by decide,
    ((C10_record_invariants [cexAnchorC1]).2 cexRecordC1 (by decide)).2.1,
    ((C10_record_invariants [cexAnchorC1]).2 cexRecordC1 (by decide)).2.2.1,
    ((C10_record_invariants [cexAnchorC1]).2 cexRecordC1 (by decide)).2.2.2⟩
